import Mathlib

/-!
Shallow embedding of the `enhanced_enum!` macro expansion (src/src/lib.rs).

The macro, applied to an ordered list of variant identifiers, generates a
fieldless enum together with a keyed array type.  We model the generated enum
with `n` variants by `Fin n`: the Rust compiler assigns variant `i` the dense
discriminant `i`, which is exactly `Fin n`'s value.  The identifier list is
carried separately (as a `List String`) for the string conversions.

Panics are modelled by `none` in an `Option`; fallible conversions return
`Except String` mirroring the source's `Result<Self, &'static str>`.
`debug : Bool` models `cfg!(debug_assertions)`.
-/

namespace EnhancedEnum

/-- The `count!` helper macro (src/src/lib.rs lines 334-337): recursively counts
the declared variant identifiers. -/
def count : List String → Nat
  | [] => 0
  | _ :: xs => 1 + count xs

/-- `len()` delegates to `count()`. -/
def len (names : List String) : Nat := count names

/-- The declaration-order list of all variants of an enum with `n` variants,
each identified with its dense discriminant. -/
def variants (n : Nat) : List (Fin n) := List.finRange n

/-- The cast `v as u32`: the default (`isize`-sized) discriminant truncated to
32 bits. -/
def as_u32 {n : Nat} (v : Fin n) : Nat := v.val % 2 ^ 32

/-- The cast `v as usize` on a 64-bit target. -/
def as_usize {n : Nat} (v : Fin n) : Nat := v.val % 2 ^ 64

/-- `impl TryFrom<u32>` (lines 146-157).  In a debug build the guard evaluates
`u32::try_from(count() - 1)`: for `n = 0` the subtraction `count() - 1`
overflows and panics; the guard itself panics when `count() - 1` exceeds
`u32::MAX`.  Otherwise the match arms compare the input against each variant's
`as u32` discriminant in declaration order, and the default arm returns the
error.  `none` models a panic. -/
def try_from_u32 (debug : Bool) (n : Nat) (value : Nat) :
    Option (Except String (Fin n)) :=
  if debug ∧ n = 0 then none
  else if debug ∧ 2 ^ 32 ≤ n - 1 then none
  else some (match (variants n).find? (fun v => value == as_u32 v) with
    | some v => Except.ok v
    | none => Except.error "Bad enum discriminant!")

/-- `impl TryFrom<u64>` (lines 159-165): narrows the input to `u32` with
`unwrap` (a panic when the value exceeds `u32::MAX`), then delegates to the
`u32` conversion. -/
def try_from_u64 (debug : Bool) (n : Nat) (value : Nat) :
    Option (Except String (Fin n)) :=
  if value < 2 ^ 32 then try_from_u32 debug n value else none

/-- `impl TryFrom<usize>` (lines 167-173): same narrowing through `u32`. -/
def try_from_usize (debug : Bool) (n : Nat) (value : Nat) :
    Option (Except String (Fin n)) :=
  if value < 2 ^ 32 then try_from_u32 debug n value else none

/-- `to_str` (lines 133-137): the match arm for variant `v` returns
`stringify!(ident)`, i.e. the declared identifier text, which is the `v`-th
entry of the identifier list. -/
def to_str (names : List String) (v : Fin names.length) : String :=
  names.get v

/-- `to_string` goes through `Display` (lines 140-144), which formats with the
derived `Debug`; for a fieldless enum the derived `Debug` prints exactly the
declared identifier. -/
def to_string (names : List String) (v : Fin names.length) : String :=
  to_str names v

/-- `impl TryFrom<&str>` (lines 175-183): the match arms compare the input
string against `variant.to_string()` in declaration order; the default arm
returns the error. -/
def try_from_str (names : List String) (value : String) :
    Except String (Fin names.length) :=
  match (variants names.length).find? (fun v => value == to_string names v) with
  | some v => Except.ok v
  | none => Except.error "Unrecognized variant name!"

/-- The closure inside `iter()` (lines 126-131): scans the arms
`_ if x == Variant as usize => Variant` in declaration order; `none` models
the trailing panic arm. -/
def iter_match (n : Nat) (x : Nat) : Option (Fin n) :=
  (variants n).find? (fun v => x == as_usize v)

/-- `iter()` (lines 126-131): `(0..count()).map(closure)`. -/
def iter (n : Nat) : List (Option (Fin n)) :=
  (List.range n).map (iter_match n)

/-- The generated array type (lines 194-196): a wrapper around `[T; count()]`.
The length is part of the type, modelled by the bundled length invariant. -/
structure EnumArray (n : Nat) (T : Type) where
  data : List T
  hlen : data.length = n

/-- `try_from(idx).unwrap()` inside the `new_with` loop (line 215):
the `usize` conversion, with both the narrowing panic and the `unwrap` of an
`Err` modelled as `none`. -/
def try_from_usize_unwrap (debug : Bool) (n : Nat) (idx : Nat) : Option (Fin n) :=
  match try_from_usize debug n idx with
  | some (Except.ok v) => some v
  | _ => none

/-- The slot-filling loop of `new_with` (lines 206-218): for each index the
loop writes `initial_value(try_from(idx).unwrap())` into its slot; a panic
anywhere aborts the whole construction. -/
def init_slots {T : Type} (debug : Bool) (n : Nat) (f : Fin n → T) :
    List Nat → Option (List T)
  | [] => some []
  | idx :: rest =>
    match try_from_usize_unwrap debug n idx with
    | none => none
    | some v => (init_slots debug n f rest).map (fun l => f v :: l)

theorem init_slots_length {T : Type} (debug : Bool) (n : Nat) (f : Fin n → T) :
    ∀ (idxs : List Nat) (l : List T),
      init_slots debug n f idxs = some l → l.length = idxs.length := by
  intro idxs
  induction idxs with
  | nil => intro l h; simp [init_slots] at h; simp [h.symm]
  | cons idx rest ih =>
    intro l h
    simp only [init_slots] at h
    rcases hconv : try_from_usize_unwrap debug n idx with _ | v
    · rw [hconv] at h; exact absurd h (by simp)
    · rw [hconv] at h
      rcases hrest : init_slots debug n f rest with _ | l'
      · rw [hrest] at h; exact absurd h (by simp)
      · rw [hrest] at h
        have hl : f v :: l' = l := by simpa using h
        subst hl
        simp [ih l' hrest]

/-- `new_with` (lines 206-218): builds the array slot by slot from the
initializer, indices processed in ascending order `0, 1, …, count()-1`. -/
def new_with {T : Type} (debug : Bool) (n : Nat) (f : Fin n → T) :
    Option (EnumArray n T) :=
  match h : init_slots debug n f (List.range n) with
  | none => none
  | some l => some ⟨l, by
      rw [init_slots_length debug n f _ l h, List.length_range]⟩

/-- `new` (lines 200-202): fills every slot with clones of one value. -/
def new {T : Type} (debug : Bool) (n : Nat) (initial_value : T) :
    Option (EnumArray n T) :=
  new_with debug n (fun _ => initial_value)

/-- `Index` (lines 263-268): `&self.data[x as usize]`.  The index is always in
bounds because `x as usize < n` and the stored slice has length `n`. -/
def EnumArray.index {n : Nat} {T : Type} (a : EnumArray n T) (v : Fin n) : T :=
  a.data.get ⟨as_usize v, by
    rw [a.hlen]
    exact Nat.lt_of_le_of_lt (Nat.mod_le _ _) v.isLt⟩

/-- `map` (lines 245-247): `Array::new_with(|x| f(&self[x]))`.  It reads the
source through shared references only, so the source is not mutated. -/
def EnumArray.map {n : Nat} {T Q : Type} (debug : Bool) (a : EnumArray n T)
    (f : T → Q) : Option (EnumArray n Q) :=
  new_with debug n (fun x => f (a.index x))

/-- Slice equality underlying `PartialEq for Array` (lines 300-304):
`self.data == other.data` compares the two sequences element-wise with the
element type's `==`, in slot order. -/
def slice_eq {T : Type} [BEq T] : List T → List T → Bool
  | [], [] => true
  | x :: xs, y :: ys => x == y && slice_eq xs ys
  | _, _ => false

/-- `PartialEq for Array` (lines 300-304). -/
def EnumArray.beq {n : Nat} {T : Type} [BEq T] (a b : EnumArray n T) : Bool :=
  slice_eq a.data b.data

/-- `Hash for Array` (lines 320-324): `self.data.hash(state)` feeds every
element, in slot order, into the hasher state.  The hasher is modelled
abstractly by its state type `S` and its per-element transition `step`. -/
def EnumArray.hash_fold {n : Nat} {T S : Type} (step : S → T → S) (s : S)
    (a : EnumArray n T) : S :=
  a.data.foldl step s

/-! ### Helper lemmas -/

/-- `find?` returns the unique element satisfying the predicate, when that
element is in the list. -/
theorem find_first {α : Type} (p : α → Bool) (a : α) :
    ∀ l : List α, a ∈ l → p a = true →
      (∀ x ∈ l, p x = true → x = a) → l.find? p = some a := by
  intro l
  induction l with
  | nil => intro h _ _; exact absurd h (List.not_mem_nil a)
  | cons b t ih =>
    intro hmem hpa huniq
    by_cases hb : p b = true
    · have hba : b = a := huniq b (List.mem_cons_self b t) hb
      subst hba
      simp [List.find?, hb]
    · have hmem' : a ∈ t := by
        rcases List.mem_cons.mp hmem with h | h
        · exact absurd (h ▸ hpa) hb
        · exact h
      have hstep : (b :: t).find? p = t.find? p := by simp [List.find?, hb]
      rw [hstep]
      exact ih hmem' hpa (fun x hx hpx => huniq x (List.mem_cons_of_mem b hx) hpx)

/-- The declaration-order scan of the variant list finds exactly the variant
whose (possibly truncated) discriminant equals an in-range value. -/
theorem find_variant_of_lt (m n value : Nat) (hm : n ≤ m) (hv : value < n) :
    (List.finRange n).find? (fun v => value == v.val % m) = some ⟨value, hv⟩ := by
  apply find_first
  · exact List.mem_finRange _
  · simp [Nat.mod_eq_of_lt (Nat.lt_of_lt_of_le hv hm)]
  · intro x _ hx
    have hxm : x.val % m = x.val := Nat.mod_eq_of_lt (Nat.lt_of_lt_of_le x.isLt hm)
    have hx' : value = x.val % m := by simpa using hx
    rw [hxm] at hx'
    exact Fin.ext hx'.symm

/-- The scan finds nothing when the value is at least the variant count. -/
theorem find_variant_of_ge (m n value : Nat) (hv : n ≤ value) :
    (List.finRange n).find? (fun v => value == v.val % m) = none := by
  rw [List.find?_eq_none]
  intro x _
  have h1 : x.val % m ≤ x.val := Nat.mod_le _ _
  have h2 : x.val < n := x.isLt
  simp only [beq_iff_eq]
  omega

theorem try_from_u32_ok (debug : Bool) (n value : Nat) (hn : n ≤ 2 ^ 32)
    (hv : value < n) :
    try_from_u32 debug n value = some (Except.ok ⟨value, hv⟩) := by
  have h0 : ¬ (debug = true ∧ n = 0) := by rintro ⟨_, rfl⟩; omega
  have h1 : ¬ (debug = true ∧ 2 ^ 32 ≤ n - 1) := by rintro ⟨_, h⟩; omega
  simp only [try_from_u32, as_u32, variants]
  rw [if_neg h0, if_neg h1, find_variant_of_lt (2 ^ 32) n value hn hv]

theorem try_from_u32_err (debug : Bool) (n value : Nat)
    (hdbg : debug = true → 0 < n) (hn : n ≤ 2 ^ 32) (hv : n ≤ value) :
    try_from_u32 debug n value = some (Except.error "Bad enum discriminant!") := by
  have h0 : ¬ (debug = true ∧ n = 0) := by
    rintro ⟨hd, rfl⟩; exact absurd (hdbg hd) (by omega)
  have h1 : ¬ (debug = true ∧ 2 ^ 32 ≤ n - 1) := by rintro ⟨_, h⟩; omega
  simp only [try_from_u32, as_u32, variants]
  rw [if_neg h0, if_neg h1, find_variant_of_ge (2 ^ 32) n value hv]

theorem try_from_usize_unwrap_lt (debug : Bool) (n idx : Nat) (hn : n ≤ 2 ^ 32)
    (hidx : idx < n) :
    try_from_usize_unwrap debug n idx = some ⟨idx, hidx⟩ := by
  simp only [try_from_usize_unwrap, try_from_usize,
    if_pos (Nat.lt_of_lt_of_le hidx hn), try_from_u32_ok debug n idx hn hidx]

/-- When every index converts, the slot-filling loop succeeds and records the
initializer's outputs in loop order. -/
theorem init_slots_of_forall {T : Type} (debug : Bool) (n : Nat) (f : Fin n → T)
    (g : Nat → Fin n) :
    ∀ idxs : List Nat, (∀ i ∈ idxs, try_from_usize_unwrap debug n i = some (g i)) →
      init_slots debug n f idxs = some (idxs.map (fun i => f (g i))) := by
  intro idxs
  induction idxs with
  | nil => intro _; rfl
  | cons idx rest ih =>
    intro h
    have hconv := h idx (List.mem_cons_self idx rest)
    simp only [init_slots, hconv,
      ih (fun i hi => h i (List.mem_cons_of_mem idx hi)), Option.map_some',
      List.map_cons]

theorem range_map_mod {T : Type} (n : Nat) (hpos : 0 < n) (f : Fin n → T) :
    (List.range n).map (fun i => f ⟨i % n, Nat.mod_lt i hpos⟩) =
      (List.finRange n).map f := by
  apply List.ext_getElem
  · simp
  · intro k h1 h2
    have hk : k < n := by simpa using h1
    simp only [List.getElem_map, List.getElem_range, List.getElem_finRange]
    congr 1
    exact Fin.ext (by simpa using Nat.mod_eq_of_lt hk)

theorem EnumArray.eq_of_data_eq {n : Nat} {T : Type} {a b : EnumArray n T}
    (h : a.data = b.data) : a = b := by
  cases a; cases b; simp_all

/-- The value of a successful `new_with`: the initializer mapped, in
declaration order, over the full variant list. -/
theorem new_with_eq {T : Type} (debug : Bool) (n : Nat) (f : Fin n → T)
    (hn : n ≤ 2 ^ 32) :
    new_with debug n f = some ⟨(variants n).map f, by simp [variants]⟩ := by
  rcases Nat.eq_zero_or_pos n with hz | hpos
  · subst hz
    have h1 : new_with debug 0 f = some ⟨[], rfl⟩ := rfl
    have h2 : (⟨[], rfl⟩ : EnumArray 0 T) =
        ⟨(variants 0).map f, by simp [variants]⟩ :=
      EnumArray.eq_of_data_eq (by simp [variants])
    rw [h1, h2]
  · have hinit : init_slots debug n f (List.range n) =
        some ((List.range n).map (fun i => f ⟨i % n, Nat.mod_lt i hpos⟩)) := by
      apply init_slots_of_forall
      intro i hi
      have hilt : i < n := List.mem_range.mp hi
      have hmk : (⟨i % n, Nat.mod_lt i hpos⟩ : Fin n) = ⟨i, hilt⟩ :=
        Fin.ext (Nat.mod_eq_of_lt hilt)
      rw [hmk]
      exact try_from_usize_unwrap_lt debug n i hn hilt
    unfold new_with
    split
    · rename_i heq
      rw [hinit] at heq
      cases heq
    · rename_i l heq
      rw [hinit] at heq
      have hl : l = (List.range n).map (fun i => f ⟨i % n, Nat.mod_lt i hpos⟩) :=
        (Option.some_inj.mp heq).symm
      exact congrArg some (EnumArray.eq_of_data_eq (hl.trans (range_map_mod n hpos f)))

/-- Indexing an array whose data is the initializer mapped over the variant
list reads back exactly the initializer's value. -/
theorem index_map_variants {n : Nat} {T : Type} (f : Fin n → T) (hn : n ≤ 2 ^ 64)
    (hl : ((variants n).map f).length = n) (v : Fin n) :
    (EnumArray.mk ((variants n).map f) hl).index v = f v := by
  have hv : v.val % 2 ^ 64 = v.val :=
    Nat.mod_eq_of_lt (Nat.lt_of_lt_of_le v.isLt hn)
  simp only [EnumArray.index, as_usize, List.get_eq_getElem]
  simp only [hv, variants, List.getElem_map, List.getElem_finRange]
  congr 1

/-! ### Claim theorems -/

/-- C1: for every enumeration with `n` variants and every initializer `f`,
`new_with f` succeeds, its stored data is exactly `f` mapped over the
declaration-order variant list (so the initializer is invoked exactly once per
variant, in ascending index order, covering all variants), and indexing the
result by any variant `v` returns exactly `f v`. -/
theorem C1_new_with_correct {T : Type} (debug : Bool) (n : Nat) (f : Fin n → T)
    (hn : n ≤ 2 ^ 32) :
    ∃ a : EnumArray n T, new_with debug n f = some a ∧
      a.data = (variants n).map f ∧ ∀ v : Fin n, a.index v = f v := by
  refine ⟨⟨(variants n).map f, by simp [variants]⟩, new_with_eq debug n f hn, rfl, ?_⟩
  intro v
  exact index_map_variants f (le_trans hn (by norm_num)) _ v

theorem C1_witness :
    (2 ≤ 2 ^ 32) ∧ ∃ a : EnumArray 2 Nat,
      new_with false 2 (fun v => v.val * 10) = some a ∧
      a.data = (variants 2).map (fun v => v.val * 10) ∧
      ∀ v : Fin 2, a.index v = v.val * 10 :=
  ⟨by norm_num, C1_new_with_correct false 2 (fun v => v.val * 10) (by norm_num)⟩

/-- C2: round-trip law.  Every integer `i < n` converts to a variant whose
discriminant cast yields `i` back, and every variant `v`, cast to `usize` and
converted back, yields `v` again. -/
theorem C2_round_trip (debug : Bool) (n : Nat) (hn : n ≤ 2 ^ 32) :
    (∀ i : Nat, i < n → ∃ v : Fin n,
      try_from_u32 debug n i = some (Except.ok v) ∧ as_usize v = i) ∧
    (∀ v : Fin n, try_from_usize debug n (as_usize v) = some (Except.ok v)) := by
  constructor
  · intro i hi
    refine ⟨⟨i, hi⟩, try_from_u32_ok debug n i hn hi, ?_⟩
    simp only [as_usize]
    exact Nat.mod_eq_of_lt (lt_of_lt_of_le hi (le_trans hn (by norm_num)))
  · intro v
    have hv64 : as_usize v = v.val :=
      Nat.mod_eq_of_lt (lt_of_lt_of_le v.isLt (le_trans hn (by norm_num)))
    rw [hv64, try_from_usize, if_pos (lt_of_lt_of_le v.isLt hn)]
    exact try_from_u32_ok debug n v.val hn v.isLt

theorem C2_witness :
    (3 ≤ 2 ^ 32) ∧
    ((∀ i : Nat, i < 3 → ∃ v : Fin 3,
        try_from_u32 false 3 i = some (Except.ok v) ∧ as_usize v = i) ∧
      (∀ v : Fin 3, try_from_usize false 3 (as_usize v) = some (Except.ok v))) :=
  ⟨by norm_num, C2_round_trip false 3 (by norm_num)⟩

/-- C3 as stated is false: for the `u64` (and `usize`) conversion at input
`2^32` on a one-variant enum, the code panics at the narrowing `unwrap`
(modelled by `none`) instead of returning the error value. -/
theorem C3_counterexample :
    try_from_u64 false 1 (2 ^ 32) = none ∧
    try_from_usize false 1 (2 ^ 32) = none := ⟨rfl, rfl⟩

/-- C3 amended: the `u32` conversion succeeds iff the input is below the
variant count and otherwise returns the error value (given that, in a debug
build, the enum is non-empty); the `u64`/`usize` conversions agree with the
`u32` conversion on inputs that fit in a `u32` and panic on larger inputs. -/
theorem C3_amended_theorem (debug : Bool) (n value : Nat) (hn : n ≤ 2 ^ 32)
    (hdbg : debug = true → 0 < n) :
    (∀ hv : value < n,
      try_from_u32 debug n value = some (Except.ok ⟨value, hv⟩)) ∧
    (n ≤ value →
      try_from_u32 debug n value = some (Except.error "Bad enum discriminant!")) ∧
    (value < 2 ^ 32 →
      try_from_u64 debug n value = try_from_u32 debug n value ∧
      try_from_usize debug n value = try_from_u32 debug n value) ∧
    (2 ^ 32 ≤ value →
      try_from_u64 debug n value = none ∧ try_from_usize debug n value = none) :=
  ⟨fun hv => try_from_u32_ok debug n value hn hv,
    fun hv => try_from_u32_err debug n value hdbg hn hv,
    fun hlt => ⟨if_pos hlt, if_pos hlt⟩,
    fun hge => ⟨if_neg (by omega), if_neg (by omega)⟩⟩

theorem C3_amended_witness :
    try_from_u32 true 2 1 = some (Except.ok ⟨1, by norm_num⟩) ∧
    try_from_u32 true 2 9 = some (Except.error "Bad enum discriminant!") ∧
    try_from_u64 true 2 9 = try_from_u32 true 2 9 ∧
    try_from_u64 true 2 (2 ^ 32) = none :=
  ⟨(C3_amended_theorem true 2 1 (by norm_num) (fun _ => by norm_num)).1 (by norm_num),
    (C3_amended_theorem true 2 9 (by norm_num) (fun _ => by norm_num)).2.1 (by norm_num),
    ((C3_amended_theorem true 2 9 (by norm_num) (fun _ => by norm_num)).2.2.1
      (by norm_num)).1,
    ((C3_amended_theorem true 2 (2 ^ 32) (by norm_num) (fun _ => by norm_num)).2.2.2
      (le_refl _)).1⟩

/-- C10: the `u64`/`usize` conversions first narrow the input to `u32` with
`unwrap`, so every input above `u32::MAX` panics (modelled by `none`), while
every input representable in `u32` behaves identically to the `u32`
conversion. -/
theorem C10_narrowing (debug : Bool) (n value : Nat) :
    (2 ^ 32 ≤ value →
      try_from_u64 debug n value = none ∧ try_from_usize debug n value = none) ∧
    (value < 2 ^ 32 →
      try_from_u64 debug n value = try_from_u32 debug n value ∧
      try_from_usize debug n value = try_from_u32 debug n value) :=
  ⟨fun hge => ⟨if_neg (by omega), if_neg (by omega)⟩,
    fun hlt => ⟨if_pos hlt, if_pos hlt⟩⟩

theorem C10_witness :
    (2 ^ 32 ≤ 2 ^ 32 ∧ try_from_u64 false 2 (2 ^ 32) = none ∧
      try_from_usize false 2 (2 ^ 32) = none) ∧
    ((5 : Nat) < 2 ^ 32 ∧ try_from_u64 false 2 5 = try_from_u32 false 2 5 ∧
      try_from_usize false 2 5 = try_from_u32 false 2 5) :=
  ⟨⟨le_refl _, (C10_narrowing false 2 (2 ^ 32)).1 (le_refl _)⟩,
    ⟨by norm_num, (C10_narrowing false 2 5).2 (by norm_num)⟩⟩

/-- C4: the name conversion succeeds iff the input string exactly equals the
declared identifier text of some variant (the returned variant is the one so
named); for every other string it fails with the unknown-name error. -/
theorem C4_str_conversion (names : List String) (value : String) :
    ((∃ v, try_from_str names value = Except.ok v ∧ names.get v = value) ↔
      value ∈ names) ∧
    (value ∉ names →
      try_from_str names value = Except.error "Unrecognized variant name!") := by
  rcases hfind : (variants names.length).find? (fun v => value == to_string names v)
    with _ | v
  · have hres : try_from_str names value = Except.error "Unrecognized variant name!" := by
      unfold try_from_str
      rw [hfind]
    have hnomem : value ∉ names := by
      intro hmem
      rcases List.mem_iff_get.mp hmem with ⟨i, hi⟩
      have hnone := List.find?_eq_none.mp hfind i (List.mem_finRange i)
      apply hnone
      have hts : to_string names i = value := hi
      simp [hts]
    refine ⟨⟨?_, ?_⟩, fun _ => hres⟩
    · rintro ⟨v, hv, _⟩
      rw [hres] at hv
      cases hv
    · intro hmem
      exact absurd hmem hnomem
  · have hres : try_from_str names value = Except.ok v := by
      unfold try_from_str
      rw [hfind]
    have hpv := List.find?_some hfind
    have hgv : names.get v = value := by
      have hv' : value = to_string names v := by simpa using hpv
      simpa [to_string, to_str] using hv'.symm
    refine ⟨⟨fun _ => ?_, fun _ => ⟨v, hres, hgv⟩⟩, fun hnm => ?_⟩
    · rw [← hgv]
      exact List.get_mem names v.val v.isLt
    · exact absurd (hgv ▸ List.get_mem names v.val v.isLt) hnm

theorem C4_witness :
    ("foo" ∉ (["Foo", "Bar"] : List String)) ∧
    try_from_str ["Foo", "Bar"] "foo" = Except.error "Unrecognized variant name!" :=
  ⟨by decide, (C4_str_conversion ["Foo", "Bar"] "foo").2 (by decide)⟩

/-- C5: behaviour at `n = 0`.  `count` returns 0, `iter` yields the empty
sequence and the string conversion returns an error for every input, as the
claim states; but the integer conversions do not always return an error: in a
debug build the `u32` conversion panics on every input (the guard evaluates
`count() - 1`, which underflows for an empty enum), and the `u64` conversion
panics on inputs above `u32::MAX` even in a release build.  In a release
build the `u32` conversion does return the error. -/
theorem C5_empty_enum :
    count [] = 0 ∧ iter 0 = [] ∧
    try_from_u32 true 0 0 = none ∧
    try_from_u32 false 0 7 = some (Except.error "Bad enum discriminant!") ∧
    try_from_u64 false 0 (2 ^ 32) = none ∧
    try_from_str ([] : List String) "anything" =
      Except.error "Unrecognized variant name!" :=
  ⟨rfl, rfl, rfl, rfl, rfl, rfl⟩

/-- C8: `iter` yields exactly the declaration-order variant list: every step's
match succeeds (no panic arm is reached), every variant appears, and the
underlying variant list is strictly ascending and duplicate-free.  The model
is a pure function of the enum alone, so every call yields the same fresh
finite sequence. -/
theorem C8_iter_spec (n : Nat) (hn : n ≤ 2 ^ 64) :
    iter n = (variants n).map some ∧
    List.Pairwise (· < ·) (variants n) ∧
    (∀ v : Fin n, v ∈ variants n) := by
  refine ⟨?_, List.pairwise_lt_finRange n, fun v => List.mem_finRange v⟩
  rcases Nat.eq_zero_or_pos n with hz | hpos
  · subst hz
    simp [iter, variants]
  · have h1 : iter n = (List.range n).map
        (fun i => some (⟨i % n, Nat.mod_lt i hpos⟩ : Fin n)) := by
      unfold iter
      apply List.map_congr_left
      intro i hi
      have hilt : i < n := List.mem_range.mp hi
      have hmk : (⟨i % n, Nat.mod_lt i hpos⟩ : Fin n) = ⟨i, hilt⟩ :=
        Fin.ext (Nat.mod_eq_of_lt hilt)
      rw [hmk]
      simp only [iter_match, as_usize, variants]
      exact find_variant_of_lt (2 ^ 64) n i hn hilt
    exact h1.trans (range_map_mod n hpos (fun v => some v))

theorem C8_witness :
    (3 ≤ 2 ^ 64) ∧ (iter 3 = (variants 3).map some ∧
      List.Pairwise (· < ·) (variants 3) ∧ (∀ v : Fin 3, v ∈ variants 3)) :=
  ⟨by norm_num, C8_iter_spec 3 (by norm_num)⟩

/-- C9: `to_str` returns exactly the declared identifier text of each variant
(it is a total function), and is injective whenever the declared identifiers
are pairwise distinct. -/
theorem C9_to_str_spec (names : List String) (h : names.Nodup) :
    (∀ v : Fin names.length, to_str names v = names.get v) ∧
    Function.Injective (to_str names) := by
  refine ⟨fun _ => rfl, ?_⟩
  intro a b hab
  exact (h.get_inj_iff).mp hab

theorem C9_witness :
    (["Foo", "Bar"] : List String).Nodup ∧
    ((∀ v : Fin (["Foo", "Bar"] : List String).length,
        to_str ["Foo", "Bar"] v = (["Foo", "Bar"] : List String).get v) ∧
      Function.Injective (to_str ["Foo", "Bar"])) :=
  ⟨by decide, C9_to_str_spec ["Foo", "Bar"] (by decide)⟩

theorem slice_eq_map_iff {α T : Type} [BEq T] (f g : α → T) :
    ∀ l : List α,
      (slice_eq (l.map f) (l.map g) = true ↔ ∀ x ∈ l, (f x == g x) = true) := by
  intro l
  induction l with
  | nil => simp [slice_eq]
  | cons a t ih =>
    simp only [List.map_cons, slice_eq, Bool.and_eq_true, ih, List.mem_cons]
    constructor
    · rintro ⟨h1, h2⟩ x (rfl | hx)
      · exact h1
      · exact h2 x hx
    · intro h
      exact ⟨h a (Or.inl rfl), fun x hx => h x (Or.inr hx)⟩

theorem slice_eq_foldl {T S : Type} [BEq T] (step : S → T → S)
    (hstep : ∀ (s : S) (x y : T), (x == y) = true → step s x = step s y) :
    ∀ (l₁ l₂ : List T) (s : S), slice_eq l₁ l₂ = true →
      l₁.foldl step s = l₂.foldl step s := by
  intro l₁
  induction l₁ with
  | nil =>
    intro l₂ s h
    cases l₂ with
    | nil => rfl
    | cons b u => simp [slice_eq] at h
  | cons a t ih =>
    intro l₂ s h
    cases l₂ with
    | nil => simp [slice_eq] at h
    | cons b u =>
      simp only [slice_eq, Bool.and_eq_true] at h
      simp only [List.foldl_cons]
      rw [hstep s a b h.1]
      exact ih u (step s b) h.2

/-- C6: map law.  For an array built with initializer `f`, `map g` is the very
same construction as building with initializer `fun v => g (f v)`, and
element-wise every slot of the result holds `g (f v)`.  `map` reads the source
through shared indexing only, so the source array is not modified. -/
theorem C6_map_law {T Q : Type} (debug : Bool) (n : Nat) (f : Fin n → T)
    (g : T → Q) (a : EnumArray n T) (hn : n ≤ 2 ^ 32)
    (ha : new_with debug n f = some a) :
    EnumArray.map debug a g = new_with debug n (fun v => g (f v)) ∧
    ∃ b : EnumArray n Q, EnumArray.map debug a g = some b ∧
      ∀ v : Fin n, b.index v = g (f v) := by
  have hval : a = ⟨(variants n).map f, by simp [variants]⟩ := by
    have h := new_with_eq debug n f hn
    rw [ha] at h
    exact Option.some_inj.mp h
  have hidx : ∀ v : Fin n, a.index v = f v := by
    intro v
    rw [hval]
    exact index_map_variants f (le_trans hn (by norm_num)) _ v
  have hfun : (fun x => g (a.index x)) = fun v => g (f v) := by
    funext x
    rw [hidx x]
  have hmap : EnumArray.map debug a g = new_with debug n (fun v => g (f v)) := by
    unfold EnumArray.map
    rw [hfun]
  refine ⟨hmap, ⟨(variants n).map (fun v => g (f v)), by simp [variants]⟩, ?_, ?_⟩
  · rw [hmap]
    exact new_with_eq debug n (fun v => g (f v)) hn
  · intro v
    exact index_map_variants (fun v => g (f v)) (le_trans hn (by norm_num)) _ v

theorem C6_witness :
    (new_with false 2 (fun v : Fin 2 => v.val + 1) =
        some (⟨[1, 2], rfl⟩ : EnumArray 2 Nat)) ∧
    EnumArray.map false (⟨[1, 2], rfl⟩ : EnumArray 2 Nat) (fun x => x * 2) =
      new_with false 2 (fun v : Fin 2 => (v.val + 1) * 2) :=
  ⟨rfl, (C6_map_law false 2 (fun v => v.val + 1) (fun x => x * 2)
      (⟨[1, 2], rfl⟩ : EnumArray 2 Nat) (by norm_num) rfl).1⟩

/-- C7: for two arrays over the same enumeration built with initializers `f`
and `g`, the generated equality holds iff `f v == g v` at every variant; and
for any hasher whose per-element step respects element equality, equal arrays
fold the hasher to the same final state. -/
theorem C7_eq_hash {T : Type} [BEq T] (debug : Bool) (n : Nat)
    (f g : Fin n → T) (a b : EnumArray n T) (hn : n ≤ 2 ^ 32)
    (ha : new_with debug n f = some a) (hb : new_with debug n g = some b) :
    (EnumArray.beq a b = true ↔ ∀ v : Fin n, (f v == g v) = true) ∧
    (∀ (S : Type) (step : S → T → S) (s : S),
      (∀ (s' : S) (x y : T), (x == y) = true → step s' x = step s' y) →
      EnumArray.beq a b = true →
      EnumArray.hash_fold step s a = EnumArray.hash_fold step s b) := by
  have hva : a = ⟨(variants n).map f, by simp [variants]⟩ := by
    have h := new_with_eq debug n f hn
    rw [ha] at h
    exact Option.some_inj.mp h
  have hvb : b = ⟨(variants n).map g, by simp [variants]⟩ := by
    have h := new_with_eq debug n g hn
    rw [hb] at h
    exact Option.some_inj.mp h
  subst hva hvb
  constructor
  · have h1 := slice_eq_map_iff f g (variants n)
    constructor
    · intro h v
      exact (h1.mp h) v (List.mem_finRange v)
    · intro h
      exact h1.mpr (fun x _ => h x)
  · intro S step s hstep heq
    exact slice_eq_foldl step (fun s' x y hxy => hstep s' x y hxy)
      ((variants n).map f) ((variants n).map g) s heq

theorem C7_witness :
    (EnumArray.beq (⟨[0, 1], rfl⟩ : EnumArray 2 Nat) ⟨[0, 1], rfl⟩ = true ↔
      ∀ v : Fin 2, (v.val == v.val) = true) ∧
    EnumArray.hash_fold (fun s x => s + x) 0 (⟨[0, 1], rfl⟩ : EnumArray 2 Nat) =
      EnumArray.hash_fold (fun s x => s + x) 0 (⟨[0, 1], rfl⟩ : EnumArray 2 Nat) :=
  ⟨(C7_eq_hash false 2 (fun v => (v.val : Nat)) (fun v => v.val) ⟨[0, 1], rfl⟩
      ⟨[0, 1], rfl⟩ (by norm_num) rfl rfl).1,
    (C7_eq_hash false 2 (fun v => (v.val : Nat)) (fun v => v.val) ⟨[0, 1], rfl⟩
      ⟨[0, 1], rfl⟩ (by norm_num) rfl rfl).2 Nat (fun s x => s + x) 0
      (fun s' x y h => by
        have hxy : x = y := by simpa using h
        rw [hxy]) rfl⟩

end EnhancedEnum
